import Mathlib

/-!
Verification of the recurring-billing projection and insight engine of the
subscription-analyzer dashboard.  The definitions below are shallow embeddings
of the JavaScript source: the calendar projector `paymentsByDate` of
`PaymentCalendar`, the alert reconciler of the `useAlerts` hook, the savings
sort of `SavingsModal`, and the insight normalization of `AIInsights`.
-/

namespace SubAnalyzer

/-- A plain calendar date (timezone-neutral model of a JS `Date` value that
holds a valid date). -/
structure SDate where
  year : Nat
  month : Nat
  day : Nat
deriving DecidableEq, Repr

/-- Gregorian leap-year rule, as implemented by JS `Date`. -/
def isLeapYear (y : Nat) : Bool :=
  (y % 4 == 0 && y % 100 != 0) || (y % 400 == 0)

/-- Number of days of month `m` of year `y`; model of
`endOfMonth(currentMonth).getDate()`. -/
def daysInMonth (y m : Nat) : Nat :=
  if m = 2 then (if isLeapYear y then 29 else 28)
  else if m = 4 ∨ m = 6 ∨ m = 9 ∨ m = 11 then 30
  else 31

/-- Decimal value of a digit character, `none` on a non-digit. -/
def digitVal (c : Char) : Option Nat :=
  if c.isDigit then some (c.toNat - 48) else none

/-- Parse a non-empty all-digit character list as a natural number. -/
def parseNatCore (cs : List Char) : Option Nat :=
  if cs = [] then none
  else cs.foldl (fun acc c =>
    match acc, digitVal c with
    | some n, some d => some (n * 10 + d)
    | _, _ => none) (some 0)

/-- Split a character list on the dash separator. -/
def splitDash : List Char → List (List Char)
  | [] => [[]]
  | c :: rest =>
    match splitDash rest with
    | [] => [[]]
    | g :: gs => if c = '-' then [] :: g :: gs else (c :: g) :: gs

/-- Model of `new Date(str)` on an ISO `YYYY-MM-DD` string: `some` of the
calendar date when the string is a well-formed date, `none` for a malformed
string (JS yields an Invalid Date). -/
def parseDate (s : String) : Option SDate :=
  match splitDash s.data with
  | [ys, ms, ds] =>
    match parseNatCore ys, parseNatCore ms, parseNatCore ds with
    | some y, some m, some d =>
      if 1 ≤ m ∧ m ≤ 12 ∧ 1 ≤ d ∧ d ≤ daysInMonth y m then
        some ⟨y, m, d⟩
      else none
    | _, _, _ => none
  | _ => none

/-- A subscription record as consumed by the calendar projector.  The billing
date fields are kept as raw optional strings, exactly as they arrive in the
JSON records; `active` is the data-model flag of the spec (the projector in
the source never reads it). -/
structure Subscription where
  id : String
  name : String
  cost : ℚ
  category : String
  billing_cycle : String
  next_billing_date : Option String
  next_billing : Option String
  active : Bool
deriving DecidableEq, Repr

/-- JS truthiness of an optional string value (`undefined` and the empty
string are falsy). -/
def truthyStr : Option String → Bool
  | none => false
  | some s => !s.isEmpty

/-- Model of `sub.next_billing_date || sub.next_billing`. -/
def billingOf (s : Subscription) : Option String :=
  if truthyStr s.next_billing_date then s.next_billing_date else s.next_billing

/-- The per-subscription body of `paymentsByDate` (PaymentCalendar): computes
the date of the calendar entry of the subscription in the viewed month `(vy, vm)`, `none`
when the subscription contributes no entry, and an error when the source
throws (date-fns `format` raises `RangeError` on the invalid `payDate` that
the `monthly` branch builds from an unparseable billing date). -/
def projectSub (s : Subscription) (vy vm : Nat) : Except String (Option SDate) :=
  match billingOf s with
  | none => .ok none
  | some str =>
    if str.isEmpty then .ok none
    else
      if s.billing_cycle = "monthly" then
        match parseDate str with
        | none => .error "RangeError: Invalid time value"
        | some dt => .ok (some ⟨vy, vm, min dt.day (daysInMonth vy vm)⟩)
      else if s.billing_cycle = "active" ∨ s.billing_cycle = "Active" then
        match parseDate str with
        | none => .ok none
        | some dt =>
          if dt.year = vy ∧ dt.month = vm then .ok (some dt) else .ok none
      else
        match parseDate str with
        | none => .ok none
        | some dt =>
          if dt.year = vy ∧ dt.month = vm then .ok (some dt) else .ok none

/-- Model of the `paymentsByDate` projection of PaymentCalendar for the viewed
month `(vy, vm)`: the list of (date, subscription) calendar entries in source
iteration order, or the error the source throws. -/
def paymentsByDate (subs : List Subscription) (vy vm : Nat) :
    Except String (List (SDate × Subscription)) :=
  match subs with
  | [] => .ok []
  | s :: rest =>
    match projectSub s vy vm with
    | .error e => .error e
    | .ok d? =>
      match paymentsByDate rest vy vm with
      | .error e => .error e
      | .ok tail =>
        match d? with
        | some d => .ok ((d, s) :: tail)
        | none => .ok tail

example : parseDate "2023-01-31" = some ⟨2023, 1, 31⟩ := by decide
example : parseDate "garbage" = none := by decide
example : parseDate "2023-02-29" = none := by decide
example : daysInMonth 2024 2 = 29 := by decide

/-- An entry `(d, s)` appears in a successful projection exactly when `s` is
one of the input subscriptions and its per-subscription body yields `d`. -/
theorem mem_paymentsByDate {subs : List Subscription} {vy vm : Nat}
    {entries : List (SDate × Subscription)}
    (h : paymentsByDate subs vy vm = .ok entries) (d : SDate) (s : Subscription) :
    (d, s) ∈ entries ↔ s ∈ subs ∧ projectSub s vy vm = .ok (some d) := by
  induction subs generalizing entries with
  | nil =>
    simp only [paymentsByDate] at h
    cases h
    simp
  | cons s0 rest ih =>
    simp only [paymentsByDate] at h
    cases hp : projectSub s0 vy vm with
    | error e => rw [hp] at h; cases h
    | ok d? =>
      rw [hp] at h
      cases hr : paymentsByDate rest vy vm with
      | error e => rw [hr] at h; cases h
      | ok tail =>
        rw [hr] at h
        cases d? with
        | some d0 =>
          cases h
          rw [List.mem_cons, ih hr, List.mem_cons, Prod.mk.injEq]
          constructor
          · rintro (⟨rfl, rfl⟩ | ⟨hs, hp2⟩)
            · exact ⟨Or.inl rfl, hp⟩
            · exact ⟨Or.inr hs, hp2⟩
          · rintro ⟨rfl | hs, hp2⟩
            · rw [hp] at hp2
              simp only [Except.ok.injEq, Option.some.injEq] at hp2
              exact Or.inl ⟨hp2.symm, rfl⟩
            · exact Or.inr ⟨hs, hp2⟩
        | none =>
          cases h
          rw [ih hr, List.mem_cons]
          constructor
          · rintro ⟨hs, hp2⟩
            exact ⟨Or.inr hs, hp2⟩
          · rintro ⟨rfl | hs, hp2⟩
            · rw [hp] at hp2
              cases hp2
            · exact ⟨hs, hp2⟩

/-- The body of `paymentsByDate` on a subscription with `billing_cycle`
equal to the string monthly and a parseable billing date. -/
theorem projectSub_monthly {s : Subscription} {str : String} {dt : SDate}
    (hcyc : s.billing_cycle = "monthly") (hbill : billingOf s = some str)
    (hne : str.isEmpty = false) (hparse : parseDate str = some dt)
    (vy vm : Nat) :
    projectSub s vy vm = .ok (some ⟨vy, vm, min dt.day (daysInMonth vy vm)⟩) := by
  unfold projectSub
  rw [hbill]
  simp [hne, hcyc, hparse]

/-- C1: for a subscription with monthly billing cycle whose anchor date has
day-of-month `d`, the projection of a viewed month with fewer than `d` days
places the entry on the last day of the viewed month, and on day `d` when the
month has at least `d` days. -/
theorem monthly_entry_clamped_to_month_end
    {subs : List Subscription} {vy vm : Nat}
    {entries : List (SDate × Subscription)}
    {s : Subscription} {str : String} {dt : SDate}
    (hok : paymentsByDate subs vy vm = .ok entries)
    (hmem : s ∈ subs) (hcyc : s.billing_cycle = "monthly")
    (hbill : billingOf s = some str) (hne : str.isEmpty = false)
    (hparse : parseDate str = some dt) :
    ((⟨vy, vm, if daysInMonth vy vm < dt.day then daysInMonth vy vm else dt.day⟩ : SDate), s)
        ∈ entries
      ∧ ∀ e ∈ entries, e.2 = s →
          e.1 = ⟨vy, vm, if daysInMonth vy vm < dt.day then daysInMonth vy vm else dt.day⟩ := by
  have hproj := projectSub_monthly hcyc hbill hne hparse vy vm
  have hmin : min dt.day (daysInMonth vy vm)
      = if daysInMonth vy vm < dt.day then daysInMonth vy vm else dt.day := by
    rw [Nat.min_def]
    split_ifs <;> omega
  rw [hmin] at hproj
  constructor
  · rw [mem_paymentsByDate hok]
    exact ⟨hmem, hproj⟩
  · rintro ⟨d, s2⟩ he rfl
    have h2 := ((mem_paymentsByDate hok d s2).mp he).2
    rw [hproj] at h2
    simp only [Except.ok.injEq, Option.some.injEq] at h2
    exact h2.symm

/-- A concrete run of C1: anchor 2023-01-31, viewing February 2023 (28 days),
the entry lands on 2023-02-28. -/
def mSub : Subscription :=
  ⟨"sub-1", "Streamflix", 10, "Entertainment", "monthly", some "2023-01-31", none, true⟩

theorem monthly_entry_clamped_witness :
    ((⟨2023, 2, 28⟩ : SDate), mSub) ∈ [((⟨2023, 2, 28⟩ : SDate), mSub)]
      ∧ ∀ e ∈ [((⟨2023, 2, 28⟩ : SDate), mSub)], e.2 = mSub →
          e.1 = ⟨2023, 2, 28⟩ := by
  have h := @monthly_entry_clamped_to_month_end
    [mSub] 2023 2 [(⟨2023, 2, 28⟩, mSub)] mSub "2023-01-31" ⟨2023, 1, 31⟩
    rfl (by decide) (by decide) (by decide) (by decide) (by decide)
  exact h

/-- The body of `paymentsByDate` on a subscription whose cycle is none of
monthly, active, Active (this covers weekly and annual): the entry is the
parsed billing date itself, and only when it falls in the viewed month. -/
theorem projectSub_other {s : Subscription} {str : String} {dt : SDate}
    (hm : s.billing_cycle ≠ "monthly") (ha : s.billing_cycle ≠ "active")
    (hA : s.billing_cycle ≠ "Active")
    (hbill : billingOf s = some str) (hne : str.isEmpty = false)
    (hparse : parseDate str = some dt) (vy vm : Nat) :
    projectSub s vy vm
      = .ok (if dt.year = vy ∧ dt.month = vm then some dt else none) := by
  unfold projectSub
  rw [hbill]
  simp only [hne, hm, ha, hA, hparse]
  simp only [Bool.false_eq_true, if_false, or_self]
  split <;> rfl

/-- A weekly subscription anchored on the first day of 31-day March 2024. -/
def wSub : Subscription :=
  ⟨"sub-2", "WeeklyBox", 5, "Entertainment", "weekly", some "2024-03-01", none, true⟩

/-- The calendar entries the projection produces for `wSub` in March 2024. -/
def wEntries : List (SDate × Subscription) :=
  (paymentsByDate [wSub] 2024 3).toOption.getD []

/-- C2 counterexample: the claim demands weekly entries on March 1, 8, 15,
22 and 29 (five entries); the code emits a single entry, on the anchor date
March 1, and no entry on March 8. -/
theorem weekly_not_enumerated_cex :
    wEntries = [((⟨2024, 3, 1⟩ : SDate), wSub)]
      ∧ ((⟨2024, 3, 8⟩ : SDate), wSub) ∉ wEntries
      ∧ wEntries.length ≠ 5 := by
  refine ⟨rfl, ?_, by decide⟩
  intro hmem
  rw [show wEntries = [((⟨2024, 3, 1⟩ : SDate), wSub)] from rfl] at hmem
  simp at hmem

/-- C2 amended: a weekly subscription contributes at most one calendar entry
per viewed month, namely its anchor billing date, and only when that date
falls inside the viewed month; the remaining weekly occurrences
(anchor plus multiples of seven days) are not enumerated. -/
theorem weekly_single_entry_on_anchor
    {subs : List Subscription} {vy vm : Nat}
    {entries : List (SDate × Subscription)}
    {s : Subscription} {str : String} {dt : SDate}
    (hok : paymentsByDate subs vy vm = .ok entries)
    (hmem : s ∈ subs) (hcyc : s.billing_cycle = "weekly")
    (hbill : billingOf s = some str) (hne : str.isEmpty = false)
    (hparse : parseDate str = some dt) :
    ((dt.year = vy ∧ dt.month = vm) → (dt, s) ∈ entries)
      ∧ ∀ e ∈ entries, e.2 = s → e.1 = dt ∧ dt.year = vy ∧ dt.month = vm := by
  have hproj := @projectSub_other s str dt
    (by rw [hcyc]; decide) (by rw [hcyc]; decide) (by rw [hcyc]; decide)
    hbill hne hparse vy vm
  constructor
  · intro hin
    rw [mem_paymentsByDate hok]
    refine ⟨hmem, ?_⟩
    rw [hproj, if_pos hin]
  · rintro ⟨d, s2⟩ he rfl
    have h2 := ((mem_paymentsByDate hok d s2).mp he).2
    rw [hproj] at h2
    by_cases hin : dt.year = vy ∧ dt.month = vm
    · rw [if_pos hin] at h2
      simp only [Except.ok.injEq, Option.some.injEq] at h2
      exact ⟨h2.symm, hin⟩
    · rw [if_neg hin] at h2
      cases h2

theorem weekly_single_entry_witness :
    ((2024 = 2024 ∧ 3 = 3) → ((⟨2024, 3, 1⟩ : SDate), wSub) ∈ wEntries)
      ∧ ∀ e ∈ wEntries, e.2 = wSub →
          e.1 = ⟨2024, 3, 1⟩ ∧ 2024 = 2024 ∧ 3 = 3 := by
  have h := @weekly_single_entry_on_anchor
    [wSub] 2024 3 wEntries wSub "2024-03-01" ⟨2024, 3, 1⟩
    rfl (by decide) (by decide) (by decide) (by decide) (by decide)
  exact h

/-- A monthly subscription that has been cancelled (`active = false`). -/
def inactiveSub : Subscription :=
  ⟨"sub-3", "DormantTV", 8, "Entertainment", "monthly", some "2024-01-15", none, false⟩

/-- The calendar entries the projection produces for `inactiveSub` in
March 2024. -/
def inactiveEntries : List (SDate × Subscription) :=
  (paymentsByDate [inactiveSub] 2024 3).toOption.getD []

/-- C3 counterexample: a subscription with `active = false` still receives a
calendar entry (here on 2024-03-15), so inactive subscriptions are not
excluded from the projection. -/
theorem inactive_sub_projected_cex :
    inactiveSub.active = false
      ∧ ((⟨2024, 3, 15⟩ : SDate), inactiveSub) ∈ inactiveEntries := by
  exact ⟨rfl, by decide⟩

/-- C3 amended: the projection never consults the `active` flag — a
subscription is projected to exactly the same occurrence dates whether its
`active` flag is true or false; exclusion of inactive subscriptions, if
desired, has to happen before the list reaches the projector. -/
theorem projectSub_ignores_active (s : Subscription) (vy vm : Nat) (b : Bool) :
    projectSub { s with active := b } vy vm = projectSub s vy vm := by
  cases s
  rfl

/-- The only way the per-subscription body can fail is a monthly cycle with a
present, non-empty, unparseable billing date. -/
theorem projectSub_error_inversion {s : Subscription} {vy vm : Nat} {e : String}
    (h : projectSub s vy vm = .error e) :
    s.billing_cycle = "monthly" ∧ ∃ str, billingOf s = some str
      ∧ str.isEmpty = false ∧ parseDate str = none := by
  unfold projectSub at h
  split at h
  · cases h
  · rename_i str hb
    split at h
    · cases h
    · rename_i hne
      split at h
      · rename_i hc
        split at h
        · rename_i hp
          exact ⟨hc, str, hb, by simpa using hne, hp⟩
        · cases h
      · split at h
        · split at h
          · cases h
          · split at h <;> cases h
        · split at h
          · cases h
          · split at h <;> cases h

/-- A subscription whose billing date is falsy (absent or the empty string)
is skipped by the projector. -/
theorem projectSub_skip_of_falsy {s : Subscription} {vy vm : Nat}
    (h : truthyStr (billingOf s) = false) : projectSub s vy vm = .ok none := by
  cases hb : billingOf s with
  | none =>
    unfold projectSub
    rw [hb]
  | some str =>
    have h2 : str.isEmpty = true := by
      rw [hb] at h
      simpa [truthyStr] using h
    unfold projectSub
    rw [hb]
    simp [h2]

/-- When the present billing date of every monthly subscription parses, the
whole projection succeeds. -/
theorem paymentsByDate_ok (subs : List Subscription) (vy vm : Nat)
    (hgood : ∀ s ∈ subs, s.billing_cycle = "monthly" →
      ∀ str, billingOf s = some str → str.isEmpty = false →
        (parseDate str).isSome) :
    ∃ entries, paymentsByDate subs vy vm = .ok entries := by
  induction subs with
  | nil => exact ⟨[], rfl⟩
  | cons s0 rest ih =>
    obtain ⟨tail, htail⟩ := ih (fun s hs => hgood s (List.mem_cons_of_mem _ hs))
    cases hp : projectSub s0 vy vm with
    | error e =>
      obtain ⟨hc, str, hb, hne, hnone⟩ := projectSub_error_inversion hp
      have := hgood s0 (List.mem_cons_self _ _) hc str hb hne
      rw [hnone] at this
      cases this
    | ok d? =>
      cases d? with
      | some d =>
        refine ⟨(d, s0) :: tail, ?_⟩
        simp only [paymentsByDate, hp, htail]
      | none =>
        refine ⟨tail, ?_⟩
        simp only [paymentsByDate, hp, htail]

/-- C4 amended: a subscription whose billing date is missing (falsy) is
skipped and contributes no calendar entry, and as long as every monthly
present billing date of every monthly subscription parses, the projection of the whole list
succeeds.  (A present but unparseable billing date on a monthly-cycle
subscription, by contrast, aborts the entire projection with an error — see
the counterexample.) -/
theorem projection_skips_missing_dates
    (subs : List Subscription) (vy vm : Nat)
    (hgood : ∀ s ∈ subs, s.billing_cycle = "monthly" →
      ∀ str, billingOf s = some str → str.isEmpty = false →
        (parseDate str).isSome) :
    ∃ entries, paymentsByDate subs vy vm = .ok entries
      ∧ ∀ s ∈ subs, truthyStr (billingOf s) = false →
          ∀ e ∈ entries, e.2 ≠ s := by
  obtain ⟨entries, hok⟩ := paymentsByDate_ok subs vy vm hgood
  refine ⟨entries, hok, ?_⟩
  intro s _ hfals
  rintro ⟨d, s2⟩ he heq
  simp only at heq
  subst heq
  have hm := ((mem_paymentsByDate hok d s2).mp he).2
  rw [projectSub_skip_of_falsy hfals] at hm
  cases hm

/-- A monthly subscription with no billing date at all. -/
def noDateSub : Subscription :=
  ⟨"sub-6", "NoDate", 4, "Other", "monthly", none, none, true⟩

theorem projection_skips_missing_dates_witness :
    ∃ entries, paymentsByDate [noDateSub, wSub] 2024 3 = .ok entries
      ∧ ∀ s ∈ [noDateSub, wSub], truthyStr (billingOf s) = false →
          ∀ e ∈ entries, e.2 ≠ s :=
  projection_skips_missing_dates [noDateSub, wSub] 2024 3 (by decide)

/-- A monthly subscription whose billing date string is unparseable. -/
def badSub : Subscription :=
  ⟨"sub-4", "BrokenDate", 7, "Other", "monthly", some "garbage", none, true⟩

/-- A well-formed monthly subscription listed after the broken one. -/
def goodSub : Subscription :=
  ⟨"sub-5", "FineSub", 3, "Other", "monthly", some "2024-03-10", none, true⟩

/-- C4 counterexample: a monthly subscription with an unparseable billing
date makes the projection raise (date-fns `format` on the invalid date), so
the remaining well-formed subscription is never projected. -/
theorem malformed_monthly_aborts_cex :
    paymentsByDate [badSub, goodSub] 2024 3
      = Except.error "RangeError: Invalid time value" := rfl

/-- An alert as held by the `useAlerts` hook. -/
structure Alert where
  alert_id : String
  type : String
  message : String
  is_read : Bool
deriving DecidableEq, Repr

/-- Model of `new Set(prev.filter(a => a.is_read).map(a => a.alert_id))`:
the ids of the previously held alerts that are marked read. -/
def readIds (l : List Alert) : List String :=
  (l.filter fun a => a.is_read).map fun a => a.alert_id

/-- The merge performed by `fetchAlerts` on a successful response: the fresh
alerts replace the held set, with `is_read` forced to whether the id was read
in the previous state. -/
def refreshAlerts (prev fresh : List Alert) : List Alert :=
  fresh.map fun a => { a with is_read := (readIds prev).contains a.alert_id }

/-- Model of `markAsRead` of the `useAlerts` hook. -/
def markAsRead (alertId : String) (l : List Alert) : List Alert :=
  l.map fun a => if a.alert_id = alertId then { a with is_read := true } else a

/-- Model of `markAllRead` of the `useAlerts` hook. -/
def markAllRead (l : List Alert) : List Alert :=
  l.map fun a => { a with is_read := true }

/-- Model of `dismissAlert` of the `useAlerts` hook. -/
def dismissAlert (alertId : String) (l : List Alert) : List Alert :=
  l.filter fun a => a.alert_id != alertId

/-- Model of the derived `unreadCount` memo of the `useAlerts` hook. -/
def unreadCount (l : List Alert) : Nat :=
  (l.filter fun a => !a.is_read).length

/-- Membership in the read-id set, expressed as a scan of the previous
alerts. -/
theorem contains_readIds (prev : List Alert) (i : String) :
    (readIds prev).contains i
      = prev.any (fun p => p.is_read && p.alert_id == i) := by
  rw [Bool.eq_iff_iff]
  simp only [List.contains, List.elem_eq_mem, decide_eq_true_eq, readIds,
    List.mem_map, List.mem_filter, List.any_eq_true, Bool.and_eq_true,
    beq_iff_eq]
  constructor
  · rintro ⟨a, ⟨ha, hr⟩, rfl⟩
    exact ⟨a, ha, hr, rfl⟩
  · rintro ⟨p, hp, hr, hid⟩
    exact ⟨p, ⟨hp, hr⟩, hid⟩

/-- C5: a held alert that is marked read keeps its read state across a
refresh that delivers a fresh alert with the same id, regardless of the
incoming `is_read` value. -/
theorem refresh_preserves_read {prev fresh : List Alert} {A B : Alert}
    (hA : A ∈ prev) (hread : A.is_read = true)
    (hB : B ∈ fresh) (hid : B.alert_id = A.alert_id) :
    ∃ C ∈ refreshAlerts prev fresh, C.alert_id = A.alert_id ∧ C.is_read = true := by
  refine ⟨{ B with is_read := (readIds prev).contains B.alert_id },
    List.mem_map_of_mem _ hB, hid, ?_⟩
  show (readIds prev).contains B.alert_id = true
  rw [contains_readIds, List.any_eq_true]
  exact ⟨A, hA, by simp [hread, hid]⟩

/-- Two alerts sharing one id: the held one read, the fresh one unread. -/
def alertHeld : Alert := ⟨"al-1", "upcoming_payment", "Payment due soon", true⟩

def alertFresh : Alert := ⟨"al-1", "upcoming_payment", "Payment due soon", false⟩

theorem refresh_preserves_read_witness :
    ∃ C ∈ refreshAlerts [alertHeld] [alertFresh],
      C.alert_id = alertHeld.alert_id ∧ C.is_read = true :=
  @refresh_preserves_read [alertHeld] [alertFresh] alertHeld alertFresh
    (by decide) (by decide) (by decide) (by decide)

/-- C6: refreshing twice with the same fresh alert list yields the same held
alert set, and hence the same unread count, as refreshing once. -/
theorem refresh_idempotent (prev X : List Alert) :
    refreshAlerts (refreshAlerts prev X) X = refreshAlerts prev X
      ∧ unreadCount (refreshAlerts (refreshAlerts prev X) X)
          = unreadCount (refreshAlerts prev X) := by
  have key : ∀ a ∈ X, (readIds (refreshAlerts prev X)).contains a.alert_id
      = (readIds prev).contains a.alert_id := by
    intro a ha
    rw [contains_readIds, contains_readIds, Bool.eq_iff_iff]
    simp only [List.any_eq_true, refreshAlerts, List.mem_map]
    constructor
    · rintro ⟨p, ⟨b, hb, rfl⟩, hp⟩
      simp only [Bool.and_eq_true, beq_iff_eq] at hp
      obtain ⟨hr, hideq⟩ := hp
      rw [contains_readIds, List.any_eq_true] at hr
      obtain ⟨q, hq, hq2⟩ := hr
      simp only [Bool.and_eq_true, beq_iff_eq] at hq2
      exact ⟨q, hq, by simp [hq2.1, hq2.2, hideq]⟩
    · rintro ⟨p, hp, hpa⟩
      refine ⟨{ a with is_read := (readIds prev).contains a.alert_id },
        ⟨a, ha, rfl⟩, ?_⟩
      simp only [Bool.and_eq_true, beq_iff_eq]
      refine ⟨?_, trivial⟩
      rw [contains_readIds, List.any_eq_true]
      exact ⟨p, hp, hpa⟩
  have h1 : refreshAlerts (refreshAlerts prev X) X = refreshAlerts prev X := by
    unfold refreshAlerts
    apply List.map_congr_left
    intro a ha
    have hk := key a ha
    unfold refreshAlerts at hk
    rw [hk]
  exact ⟨h1, by rw [h1]⟩

/-- One reconciler operation of the `useAlerts` hook. -/
inductive AlertOp where
  | refresh (fresh : List Alert)
  | markRead (id : String)
  | markAll
  | dismiss (id : String)

/-- Apply one reconciler operation to the held alert list. -/
def applyOp (s : List Alert) : AlertOp → List Alert
  | .refresh fresh => refreshAlerts s fresh
  | .markRead id => markAsRead id s
  | .markAll => markAllRead s
  | .dismiss id => dismissAlert id s

/-- Apply a sequence of reconciler operations to the held alert list. -/
def applyOps (s : List Alert) (ops : List AlertOp) : List Alert :=
  ops.foldl applyOp s

/-- C7: after any sequence of reconciler operations, `unreadCount` equals the
number of held alerts whose `is_read` is false — it is derived from the held
set, never tracked separately. -/
theorem unreadCount_always_derived (init : List Alert) (ops : List AlertOp) :
    unreadCount (applyOps init ops)
      = (applyOps init ops).countP (fun a => decide (a.is_read = false)) := by
  unfold unreadCount
  rw [List.countP_eq_length_filter]
  have hpred : (fun (a : Alert) => !a.is_read)
      = (fun a => decide (a.is_read = false)) := by
    funext a
    cases a.is_read <;> rfl
  rw [hpred]

/-- C10: the merge of `fetchAlerts` discards the incoming `is_read` flag
entirely — the merged `is_read` of each fresh alert is exactly whether some previously
held alert with the same id was read, so a fresh alert that arrives read but
was not locally read comes out unread. -/
theorem refresh_discards_incoming_read (prev fresh : List Alert) :
    refreshAlerts prev fresh
      = fresh.map (fun a =>
          { a with is_read := prev.any fun p => p.is_read && p.alert_id == a.alert_id }) := by
  unfold refreshAlerts
  simp only [contains_readIds]

/-- A savings opportunity record as consumed by the SavingsModal. -/
structure Opportunity where
  type : String
  suggestion : String
  subscription : Option String
  current_monthly : Option ℚ
  potential_monthly_savings : Option ℚ
deriving DecidableEq, Repr

/-- The sort key of the SavingsModal comparator:
`(o.potential_monthly_savings || 0)`. -/
def savKey (o : Opportunity) : ℚ :=
  o.potential_monthly_savings.getD 0

/-- Stable descending insertion: the new element goes in front of the first
element whose key does not exceed its own, so earlier elements win ties. -/
def insertBySavings (x : Opportunity) : List Opportunity → List Opportunity
  | [] => [x]
  | e :: rest =>
    if savKey e ≤ savKey x then x :: e :: rest else e :: insertBySavings x rest

/-- Model of `[...opportunities].sort((a, b) =>
(b.potential_monthly_savings || 0) - (a.potential_monthly_savings || 0))`:
JS `Array.prototype.sort` is stable, so this is the stable sort by the
defaulted savings value, descending. -/
def sortedOpportunities : List Opportunity → List Opportunity
  | [] => []
  | x :: xs => insertBySavings x (sortedOpportunities xs)

theorem insertBySavings_perm (x : Opportunity) (l : List Opportunity) :
    List.Perm (insertBySavings x l) (x :: l) := by
  induction l with
  | nil => exact List.Perm.refl _
  | cons e rest ih =>
    unfold insertBySavings
    by_cases h : savKey e ≤ savKey x
    · rw [if_pos h]
    · rw [if_neg h]
      exact (ih.cons e).trans (List.Perm.swap x e rest)

theorem mem_insertBySavings {b x : Opportunity} {l : List Opportunity}
    (h : b ∈ insertBySavings x l) : b = x ∨ b ∈ l := by
  have := (insertBySavings_perm x l).mem_iff.mp h
  simpa using this

theorem insertBySavings_pairwise (x : Opportunity) {l : List Opportunity}
    (h : List.Pairwise (fun a b => savKey b ≤ savKey a) l) :
    List.Pairwise (fun a b => savKey b ≤ savKey a) (insertBySavings x l) := by
  induction l with
  | nil => simp [insertBySavings]
  | cons e rest ih =>
    obtain ⟨he, hrest⟩ := List.pairwise_cons.mp h
    unfold insertBySavings
    by_cases hc : savKey e ≤ savKey x
    · rw [if_pos hc]
      refine List.pairwise_cons.mpr ⟨?_, h⟩
      intro b hb
      rcases List.mem_cons.mp hb with rfl | hb2
      · exact hc
      · exact le_trans (he b hb2) hc
    · rw [if_neg hc]
      refine List.pairwise_cons.mpr ⟨?_, ih hrest⟩
      intro b hb
      rcases mem_insertBySavings hb with rfl | hb2
      · exact le_of_lt (lt_of_not_le hc)
      · exact he b hb2

theorem filter_insertBySavings_pos {q : ℚ} {x : Opportunity}
    (hx : savKey x = q) (l : List Opportunity) :
    (insertBySavings x l).filter (fun o => savKey o == q)
      = x :: l.filter (fun o => savKey o == q) := by
  induction l with
  | nil => simp [insertBySavings, hx]
  | cons e rest ih =>
    unfold insertBySavings
    by_cases hc : savKey e ≤ savKey x
    · rw [if_pos hc]
      simp [hx]
    · rw [if_neg hc]
      have hne : (savKey e == q) = false := by
        simp only [beq_eq_false_iff_ne, ne_eq]
        intro heq
        exact hc (by rw [hx, ← heq])
      simp [List.filter_cons, hne, ih]

theorem filter_insertBySavings_neg {q : ℚ} {x : Opportunity}
    (hx : savKey x ≠ q) (l : List Opportunity) :
    (insertBySavings x l).filter (fun o => savKey o == q)
      = l.filter (fun o => savKey o == q) := by
  have hxf : (savKey x == q) = false := by simpa using hx
  induction l with
  | nil => simp [insertBySavings, hxf]
  | cons e rest ih =>
    unfold insertBySavings
    by_cases hc : savKey e ≤ savKey x
    · rw [if_pos hc]
      simp [List.filter_cons, hxf]
    · rw [if_neg hc]
      simp only [List.filter_cons, ih]

/-- C8: the presented opportunity list is the input sorted non-increasingly
by the (defaulted) `potential_monthly_savings` value, as a permutation of the
input in which opportunities with equal savings keep their original relative
order (every equal-savings fibre of the output equals that of the input). -/
theorem sortedOpportunities_sorted_stable (l : List Opportunity) :
    List.Pairwise (fun a b => savKey b ≤ savKey a) (sortedOpportunities l)
      ∧ List.Perm (sortedOpportunities l) l
      ∧ ∀ q : ℚ, (sortedOpportunities l).filter (fun o => savKey o == q)
          = l.filter (fun o => savKey o == q) := by
  induction l with
  | nil => exact ⟨List.Pairwise.nil, List.Perm.refl _, fun q => rfl⟩
  | cons x xs ih =>
    obtain ⟨hpw, hperm, hfil⟩ := ih
    refine ⟨insertBySavings_pairwise x hpw, ?_, ?_⟩
    · exact (insertBySavings_perm x (sortedOpportunities xs)).trans (hperm.cons x)
    · intro q
      by_cases hx : savKey x = q
      · rw [show sortedOpportunities (x :: xs) = insertBySavings x (sortedOpportunities xs) from rfl,
          filter_insertBySavings_pos hx, hfil q, List.filter_cons,
          show (savKey x == q) = true by simpa using hx]
        rfl
      · rw [show sortedOpportunities (x :: xs) = insertBySavings x (sortedOpportunities xs) from rfl,
          filter_insertBySavings_neg hx, hfil q, List.filter_cons,
          show (savKey x == q) = false by simpa using hx]
        rfl

/-- A dynamically typed JavaScript value, as handled by the AIInsights
runtime shape inspection of the AIInsights component. -/
inductive JSVal where
  | vNull
  | vUndefined
  | vBool (b : Bool)
  | vNum (q : ℚ)
  | vStr (s : String)
  | vArr (elems : List JSVal)
  | vObj (fields : List (String × JSVal))

/-- JS truthiness of a value. -/
def truthy : JSVal → Bool
  | .vNull => false
  | .vUndefined => false
  | .vBool b => b
  | .vNum q => decide (q ≠ 0)
  | .vStr s => !s.isEmpty
  | .vArr _ => true
  | .vObj _ => true

/-- Whether a value is null or undefined (the optional-chaining guard). -/
def isNullish : JSVal → Bool
  | .vNull => true
  | .vUndefined => true
  | _ => false

/-- First binding of a key in the field list of an object, `undefined` if absent. -/
def getFieldD (fields : List (String × JSVal)) (k : String) : JSVal :=
  match fields with
  | [] => .vUndefined
  | (k2, v) :: rest => if k2 = k then v else getFieldD rest k

/-- JS property access `v[k]`: throws on null/undefined, looks fields up on
objects, exposes `length` on arrays and strings, and yields undefined
otherwise. -/
def jsGetField (v : JSVal) (k : String) : Except String JSVal :=
  match v with
  | .vNull => .error "TypeError: cannot read properties of null"
  | .vUndefined => .error "TypeError: cannot read properties of undefined"
  | .vObj fs => .ok (getFieldD fs k)
  | .vArr xs => .ok (if k = "length" then .vNum xs.length else .vUndefined)
  | .vStr s => .ok (if k = "length" then .vNum s.length else .vUndefined)
  | _ => .ok .vUndefined

/-- The record built for each AI insight text:
`(text => (\x7b type: tip, message: text \x7d))`. -/
def mkTipItem (x : JSVal) : JSVal :=
  .vObj [("type", .vStr "tip"), ("message", x)]

/-- Model of `aiData?.insights?.map(text => ...) || insights` (AIInsights
lines 81-84): optional chaining short-circuits nullish links to undefined,
`.map` on a non-array non-nullish value throws, and the JS or-operator falls
back to the rule-based `insights` when the left side is falsy. -/
def displayInsights (aiData insights : JSVal) : Except String JSVal := do
  let lhs ←
    if isNullish aiData then pure JSVal.vUndefined
    else do
      let ins ← jsGetField aiData "insights"
      if isNullish ins then pure JSVal.vUndefined
      else
        match ins with
        | .vArr xs => pure (JSVal.vArr (xs.map mkTipItem))
        | _ => Except.error "TypeError: map is not a function"
  pure (if truthy lhs then lhs else insights)

/-- Model of the per-item shape inspection of the render loop (AIInsights
lines 186-190): `typeof insight` is object for objects, arrays and null;
the message and type are read off objects, and plain values become tips.
Returns the (type, message) pair the item is rendered with. -/
def renderInsightItem (insight : JSVal) : Except String (JSVal × JSVal) := do
  let isObj : Bool :=
    match insight with
    | .vObj _ => true
    | .vArr _ => true
    | .vNull => true
    | _ => false
  let msg ← if isObj then jsGetField insight "message" else pure insight
  let ty ← if isObj then jsGetField insight "type" else pure (JSVal.vStr "tip")
  pure (ty, msg)

/-- The length guard `displayInsights.length > 0`: only a positive numeric
length passes (undefined comparisons are false in JS). -/
def numGtZero : JSVal → Bool
  | .vNum q => decide (0 < q)
  | _ => false

/-- End-to-end model of the insight normalization of AIInsights: the default
prop value, the displayInsights selection, the length guard, and the mapping
of each displayed item to the (type, message) pair it is rendered with. -/
def normalizeInsights (aiData insightsProp : JSVal) :
    Except String (List (JSVal × JSVal)) := do
  let insights :=
    match insightsProp with
    | .vUndefined => JSVal.vArr []
    | x => x
  let d ← displayInsights aiData insights
  let len ← jsGetField d "length"
  if numGtZero len then
    match d with
    | .vArr xs => xs.mapM renderInsightItem
    | _ => Except.error "TypeError: map is not a function"
  else pure []

/-- C9 counterexample: a malformed source that is neither a structured list
nor a string list — here `aiData.insights` is the number 5 — makes the
normalization raise a TypeError instead of yielding an empty list. -/
theorem malformed_insights_raise_cex :
    normalizeInsights (JSVal.vObj [("insights", JSVal.vNum 5)]) (JSVal.vArr [])
      = Except.error "TypeError: map is not a function" := rfl

/-- Rendering a list of plain strings maps each to a tip keeping its text. -/
theorem mapM_renderTip (ss : List String) :
    (ss.map JSVal.vStr).mapM renderInsightItem
      = Except.ok (ss.map fun s => (JSVal.vStr "tip", JSVal.vStr s)) := by
  induction ss with
  | nil => rfl
  | cons s rest ih =>
    rw [List.map_cons, List.mapM_cons, ih]
    rfl

/-- The normalization on a null AI source and an array-shaped prop reduces to
the guarded item mapping. -/
theorem normalizeInsights_null_arr (xs : List JSVal) :
    normalizeInsights JSVal.vNull (JSVal.vArr xs)
      = if 0 < xs.length then xs.mapM renderInsightItem else Except.ok [] := by
  have h1 : normalizeInsights JSVal.vNull (JSVal.vArr xs)
      = if numGtZero (JSVal.vNum (xs.length : ℕ)) then xs.mapM renderInsightItem
        else Except.ok [] := rfl
  rw [h1]
  rcases Nat.eq_zero_or_pos xs.length with h | h
  · simp [numGtZero, h]
  · have hq : (0 : ℚ) < (xs.length : ℚ) := by exact_mod_cast h
    simp [numGtZero, hq, h]

/-- C9 amended: an absent source (null AI data with an undefined insights
prop) normalizes to the empty list without raising, and a list of plain
strings is mapped item-wise to kind tip with the string as message; but a
malformed non-nullish source that is not an array raises a TypeError instead
of degrading to the empty list (see the counterexample). -/
theorem insights_plain_strings_to_tips (ss : List String) :
    normalizeInsights JSVal.vNull (JSVal.vArr (ss.map JSVal.vStr))
        = Except.ok (ss.map fun s => (JSVal.vStr "tip", JSVal.vStr s))
      ∧ normalizeInsights JSVal.vNull JSVal.vUndefined = Except.ok [] := by
  refine ⟨?_, rfl⟩
  rw [normalizeInsights_null_arr]
  cases ss with
  | nil => rfl
  | cons s rest =>
    rw [if_pos (by simp)]
    exact mapM_renderTip (s :: rest)

end SubAnalyzer
